import Mathlib

/-!
Verification of the Soundcloud-project recognition pipeline
(`src/backend/app.py`) against its natural-language specification.

The Python functions under verification are shallowly embedded below:
`segment_audio`, `get_acrcloud_signature`, `recognize_track`,
`recognize_segment_parallel`, the `/identify` dispatch-and-collect phase,
and `merge_consecutive_tracks`.  The third-party string-similarity call
`fuzz.partial_ratio` (fuzzywuzzy, backed by `difflib.SequenceMatcher` of
the Python standard library with `isjunk = None`) is embedded faithfully
from those libraries, because the merge logic of the repository depends
on its exact values at the 80/100 threshold.
-/

namespace SCApp

/-! ## difflib.SequenceMatcher (Python stdlib), specialised to isjunk = None

The embedding works on `List Char` (Python strings are sequences of code
points, as is `String.data`).  `bjunk` is always empty because the caller
(`fuzzywuzzy`) passes `isjunk = None`, so the two junk-extension loops of
`find_longest_match` never fire and are omitted; the two non-junk
extension loops are kept. -/

def c0 : Char := Char.ofNat 0

/-- `self.b2j` of `SequenceMatcher.__chain_b`: the ascending list of
indices at which `c` occurs in `b`, with the autojunk heuristic (an
element occurring in more than 1% of `b` is dropped when
`len(b) >= 200`). -/
def b2j (b : List Char) (c : Char) : List Nat :=
  let idxs := (List.range b.length).filter (fun j => b.getD j c0 == c)
  if 200 ≤ b.length && b.length / 100 + 1 < idxs.length then [] else idxs

/-- Lookup in an association list with a default, modelling
`dict.get(key, 0)` for the `j2len` rows of `find_longest_match`. -/
def lookupD (l : List (Nat × Nat)) (key d : Nat) : Nat :=
  match l.find? (fun p => p.1 == key) with
  | some p => p.2
  | none => d

/-- The dynamic-programming core of
`SequenceMatcher.find_longest_match(alo, ahi, blo, bhi)`: for each `i`
in `range(alo, ahi)` and each occurrence `j` of `a[i]` in `b` with
`blo <= j < bhi` (the `continue`/`break` guards of the Python loop,
equivalent to a filter because `b2j` lists are ascending), extend the
previous row of `j2len` and track the best `(besti, bestj, bestsize)`;
the strict `k > bestsize` test together with the ascending iteration
order yields the earliest-in-`a`, then earliest-in-`b` maximal block. -/
def flmCore (a b : List Char) (alo ahi blo bhi : Nat) : Nat × Nat × Nat :=
  let scan := fun (st : (Nat × Nat × Nat) × List (Nat × Nat)) (i : Nat) =>
    let inner := ((b2j b (a.getD i c0)).filter (fun j => blo ≤ j && j < bhi)).foldl
      (fun (st2 : (Nat × Nat × Nat) × List (Nat × Nat)) j =>
        let k := (if j = 0 then 0 else lookupD st.2 (j - 1) 0) + 1
        let row := st2.2 ++ [(j, k)]
        if st2.1.2.2 < k then ((i + 1 - k, j + 1 - k, k), row) else (st2.1, row))
      (st.1, [])
    inner
  (((List.range' alo (ahi - alo)).foldl scan ((alo, blo, 0), [])).1)

/-- The first `while` loop of `find_longest_match` (extend the best block
to the left by equal elements; the junk test is vacuous here). `fuel`
bounds the iteration count; `a.length` always suffices. -/
def extendL (a b : List Char) (alo blo : Nat) :
    Nat → Nat × Nat × Nat → Nat × Nat × Nat
  | 0, st => st
  | fuel + 1, (besti, bestj, bestsize) =>
    if alo < besti && blo < bestj &&
        (a.getD (besti - 1) c0 == b.getD (bestj - 1) c0) then
      extendL a b alo blo fuel (besti - 1, bestj - 1, bestsize + 1)
    else (besti, bestj, bestsize)

/-- The second `while` loop of `find_longest_match` (extend to the right
by equal elements). -/
def extendR (a b : List Char) (ahi bhi : Nat) :
    Nat → Nat × Nat × Nat → Nat × Nat × Nat
  | 0, st => st
  | fuel + 1, (besti, bestj, bestsize) =>
    if besti + bestsize < ahi && bestj + bestsize < bhi &&
        (a.getD (besti + bestsize) c0 == b.getD (bestj + bestsize) c0) then
      extendR a b ahi bhi fuel (besti, bestj, bestsize + 1)
    else (besti, bestj, bestsize)

/-- `SequenceMatcher.find_longest_match` with `isjunk = None`. -/
def findLongestMatch (a b : List Char) (alo ahi blo bhi : Nat) :
    Nat × Nat × Nat :=
  extendR a b ahi bhi a.length (extendL a b alo blo a.length (flmCore a b alo ahi blo bhi))

/-- The region-splitting recursion of
`SequenceMatcher.get_matching_blocks`.  The Python code drains a LIFO
queue of regions and sorts the collected triples at the end; because the
regions form the same recursion tree with pairwise-disjoint, ordered
index ranges and `find_longest_match` is deterministic per region, the
collected set of blocks is identical, and emitting them in recursion
order (left subregion, block, right subregion) produces them already
sorted by `(i, j, k)`.  `fuel = a.length + 1` strictly dominates the
recursion depth, since each subregion is strictly shorter in `a`. -/
def matchingBlocksAux (a b : List Char) :
    Nat → Nat → Nat → Nat → Nat → List (Nat × Nat × Nat)
  | 0, _, _, _, _ => []
  | fuel + 1, alo, ahi, blo, bhi =>
    let m := findLongestMatch a b alo ahi blo bhi
    if m.2.2 = 0 then []
    else
      (if alo < m.1 && blo < m.2.1 then
        matchingBlocksAux a b fuel alo m.1 blo m.2.1
      else []) ++
      [m] ++
      (if m.1 + m.2.2 < ahi && m.2.1 + m.2.2 < bhi then
        matchingBlocksAux a b fuel (m.1 + m.2.2) ahi (m.2.1 + m.2.2) bhi
      else [])

/-- The adjacent-block collapsing pass of `get_matching_blocks`
(`i1 + k1 == i2 and j1 + k1 == j2` merges the two blocks). -/
def collapseAdj : Nat → Nat → Nat → List (Nat × Nat × Nat) → List (Nat × Nat × Nat)
  | i1, j1, k1, [] => if k1 = 0 then [] else [(i1, j1, k1)]
  | i1, j1, k1, (i2, j2, k2) :: rest =>
    if i1 + k1 = i2 && j1 + k1 = j2 then collapseAdj i1 j1 (k1 + k2) rest
    else (if k1 = 0 then [] else [(i1, j1, k1)]) ++ collapseAdj i2 j2 k2 rest

/-- `SequenceMatcher.get_matching_blocks`, dummy terminator
`(len(a), len(b), 0)` included. -/
def matchingBlocks (a b : List Char) : List (Nat × Nat × Nat) :=
  collapseAdj 0 0 0 (matchingBlocksAux a b (a.length + 1) 0 a.length 0 b.length) ++
    [(a.length, b.length, 0)]

/-- `SequenceMatcher.ratio()`: `2.0 * matches / (len(a) + len(b))`, or
`1.0` for two empty sequences.  The value is kept as the exact fraction
`(numerator, denominator)` with a positive denominator; Python computes
the same quantity as an IEEE double, and every comparison and rounding
below is performed on the exact fraction, which agrees with the double
for the short strings this development evaluates. -/
def ratioFrac (a b : List Char) : Nat × Nat :=
  let m := ((matchingBlocks a b).map (fun t => t.2.2)).sum
  if a.length + b.length = 0 then (1, 1)
  else (2 * m, a.length + b.length)

/-! ## fuzzywuzzy -/

/-- `a < b` on exact nonnegative fractions, by cross-multiplication. -/
def fracLt (a b : Nat × Nat) : Bool := a.1 * b.2 < b.1 * a.2

/-- `fuzzywuzzy.utils.intr`, i.e. Python `int(round(n))`, on the exact
nonnegative fraction `n / d`: round half to even. -/
def intr (n d : Nat) : Nat :=
  if d < 2 * (n % d) then n / d + 1
  else if 2 * (n % d) < d then n / d
  else if (n / d) % 2 = 0 then n / d else n / d + 1

/-- `fuzzywuzzy.fuzz.partial_ratio` with its `utils` decorators: `100`
on equal strings, `0` when either is empty, otherwise the best
`SequenceMatcher.ratio` of the shorter string against the
`len(shorter)`-wide slice of the longer string starting at
`max(j - i, 0)` for each matching block `(i, j, k)` (Nat subtraction is
exactly Python's `j - i if j - i > 0 else 0`).  The Python early
`return 100` on a score above `.995` is value-equivalent to the `any`
test here, since the final answer in that case is `100` either way; the
score list is nonempty because `get_matching_blocks` always ends with
the dummy block. -/
def partRatioNat (s1 s2 : String) : Nat :=
  if s1 = s2 then 100
  else if s1.data.length = 0 ∨ s2.data.length = 0 then 0
  else
    let p := if s1.data.length ≤ s2.data.length then (s1.data, s2.data)
             else (s2.data, s1.data)
    let scores := (matchingBlocks p.1 p.2).map (fun blk =>
      ratioFrac p.1 ((p.2.drop (blk.2.1 - blk.1)).take p.1.length))
    if scores.any (fun r => fracLt (995, 1000) r) then 100
    else
      let best := scores.foldl (fun acc r => if fracLt acc r then r else acc) (0, 1)
      intr (100 * best.1) best.2

/-! ## The Merger: `merge_consecutive_tracks` -/

/-- The per-segment track record appended by `/identify` (title, artist,
confidence and the three optional streaming links). -/
structure Track where
  title : String
  artist : String
  confidence : ℚ
  spotify : Option String
  deezer : Option String
  youtube : Option String
deriving DecidableEq, Repr

/-- Python `str.lower()`; agrees with `Char.toLower` on the ASCII titles
used in this development. -/
def lowerS (s : String) : String := ⟨s.data.map Char.toLower⟩

/-- Python `needle in hay` on strings: some contiguous slice of `hay`
equals `needle`. -/
def strContains (needle hay : List Char) : Bool :=
  (List.range (hay.length + 1)).any (fun i => needle.isPrefixOf (hay.drop i))

/-- `"remix" in title.lower()` of the tie-break in
`merge_consecutive_tracks`. -/
def hasRemix (t : String) : Bool := strContains "remix".data (lowerS t).data

/-- `best_tracks[key] = track` on a Python dict: the key keeps its
insertion position, only the stored value changes. -/
def updateVal (best : List (String × Track)) (key : String) (track : Track) :
    List (String × Track) :=
  best.map (fun kv => if kv.1 = key then (kv.1, track) else kv)

/-- One iteration of the `for track in tracklist` loop of
`merge_consecutive_tracks`, acting on `best_tracks` modelled as an
insertion-ordered association list (Python 3.7+ dict semantics): exact
title hit keeps the higher-confidence version; otherwise the first
previously seen key whose lowercased title scores strictly above 80 on
`fuzz.partial_ratio` absorbs the track (higher confidence wins, on a tie
a remix-marked title beats a non-remix one); otherwise the track is
appended as a new entry. -/
def mergeStep (best : List (String × Track)) (track : Track) :
    List (String × Track) :=
  match best.find? (fun kv => kv.1 == track.title) with
  | some kv =>
    if kv.2.confidence < track.confidence then updateVal best kv.1 track else best
  | none =>
    match best.find? (fun kv =>
        decide (80 < partRatioNat (lowerS track.title) (lowerS kv.1))) with
    | some kv =>
      if kv.2.confidence < track.confidence then updateVal best kv.1 track
      else if track.confidence = kv.2.confidence then
        if hasRemix track.title && !hasRemix kv.2.title then updateVal best kv.1 track
        else best
      else best
    | none => best ++ [(track.title, track)]

/-- `merge_consecutive_tracks`: fold the tracklist through `mergeStep`
and return `list(best_tracks.values())`.  The Python early return on an
empty tracklist coincides with the fold on `[]`. -/
def mergeConsecutiveTracks (tracklist : List Track) : List Track :=
  (tracklist.foldl mergeStep []).map Prod.snd

/-- The temporal first-seen order of canonical entries, written from the
spec sentence "output order is insertion order of canonical entries": a
track whose title matches an existing canonical title exactly, or
fuzzily above the threshold, creates no new entry; otherwise its title
is appended.  Confidence values and stored tracks are deliberately
absent: comparing this with the keys of `mergeStep`'s accumulator shows
that updates never reorder the output. -/
def keyStep (keys : List String) (t : Track) : List String :=
  if keys.any (fun k => k == t.title) then keys
  else if keys.any (fun k => decide (80 < partRatioNat (lowerS t.title) (lowerS k))) then keys
  else keys ++ [t.title]

/-- First-seen order of distinct (canonical) titles over a whole
tracklist. -/
def canonicalOrder (x : List Track) : List String := x.foldl keyStep []

/-- A tracklist is pairwise dissimilar when every later title differs
from every earlier one and scores at most 80 against it on
`fuzz.partial_ratio` of the lowercased titles (the order of arguments is
the one `merge_consecutive_tracks` uses: new title first, seen title
second). -/
def pairwiseDissim (x : List Track) : Prop :=
  List.Pairwise
    (fun a b => a.title ≠ b.title ∧ partRatioNat (lowerS b.title) (lowerS a.title) ≤ 80) x

instance pairwiseDissimDecidable (x : List Track) : Decidable (pairwiseDissim x) := by
  unfold pairwiseDissim
  infer_instance

/-! ## The Segmenter: `segment_audio`

`segment_audio(wav_path, segment_length=20, overlap=0)` iterates
`for start in range(0, total_length, step)` with
`step = (segment_length - overlap) * 1000`, emits the window
`[start, min(start + segment_length * 1000, total_length))` and breaks
as soon as a window ends at `total_length`.  The embedding keeps the
same second-to-millisecond structure and models the loop as a recursion
on the next `start`; `fuel = total_length` dominates the iteration count
whenever `step >= 1` (which the constraint `overlap < segment_length`
guarantees), so the fuel case is never reached there. -/

def segLoop (w step total : Nat) : Nat → Nat → List (Nat × Nat)
  | 0, _ => []
  | fuel + 1, start =>
    if start < total then
      (start, min (start + w) total) ::
        (if min (start + w) total = total then []
         else segLoop w step total fuel (start + step))
    else []

/-- List of `(startMs, endMs)` windows produced by `segment_audio` on a
source of `totalLength` milliseconds. -/
def segmentAudio (totalLength segmentLength overlap : Nat) : List (Nat × Nat) :=
  segLoop (segmentLength * 1000) ((segmentLength - overlap) * 1000) totalLength totalLength 0

/-! ## SHA-1, HMAC-SHA1, base64 and UTF-8 (for `get_acrcloud_signature`)

Bytes are `Nat` below 256, words are `Nat` below `2 ^ 32` with explicit
`% 4294967296` where overflow matters. -/

def rotl32 (s x : Nat) : Nat := ((x <<< s) ||| (x >>> (32 - s))) % 4294967296

/-- SHA-1 padding: append `0x80`, zeros to 56 mod 64, then the 64-bit
big-endian bit length. -/
def sha1Pad (msg : List Nat) : List Nat :=
  msg ++ [128] ++ List.replicate ((120 - (msg.length + 1) % 64) % 64) 0 ++
    (List.range 8).map (fun i => ((8 * msg.length) >>> (8 * (7 - i))) % 256)

/-- One 64-byte chunk as sixteen big-endian 32-bit words. -/
def sha1Words (chunk : List Nat) : List Nat :=
  (List.range 16).map (fun j =>
    chunk.getD (4 * j) 0 * 16777216 + chunk.getD (4 * j + 1) 0 * 65536 +
      chunk.getD (4 * j + 2) 0 * 256 + chunk.getD (4 * j + 3) 0)

/-- Message schedule: extend sixteen words to eighty with
`w[i] = rotl1 (w[i-3] xor w[i-8] xor w[i-14] xor w[i-16])`. -/
def sha1Schedule (w16 : List Nat) : List Nat :=
  (List.range 64).foldl
    (fun w _ =>
      w ++ [rotl32 1 ((w.getD (w.length - 3) 0) ^^^ (w.getD (w.length - 8) 0) ^^^
        (w.getD (w.length - 14) 0) ^^^ (w.getD (w.length - 16) 0))])
    w16

/-- The eighty-round SHA-1 compression of one chunk into the running
state `(h0, h1, h2, h3, h4)`. -/
def sha1Compress (hs : Nat × Nat × Nat × Nat × Nat) (chunk : List Nat) :
    Nat × Nat × Nat × Nat × Nat :=
  let w := sha1Schedule (sha1Words chunk)
  let fin := (List.range 80).foldl
    (fun (st : Nat × Nat × Nat × Nat × Nat) i =>
      let (a, b, c, d, e) := st
      let f :=
        if i < 20 then (b &&& c) ||| ((4294967295 ^^^ b) &&& d)
        else if i < 40 then b ^^^ c ^^^ d
        else if i < 60 then (b &&& c) ||| (b &&& d) ||| (c &&& d)
        else b ^^^ c ^^^ d
      let k :=
        if i < 20 then 1518500249
        else if i < 40 then 1859775393
        else if i < 60 then 2400959708
        else 3395469782
      ((rotl32 5 a + f + e + k + w.getD i 0) % 4294967296, a, rotl32 30 b, c, d))
    (hs.1, hs.2.1, hs.2.2.1, hs.2.2.2.1, hs.2.2.2.2)
  ((hs.1 + fin.1) % 4294967296, (hs.2.1 + fin.2.1) % 4294967296,
   (hs.2.2.1 + fin.2.2.1) % 4294967296, (hs.2.2.2.1 + fin.2.2.2.1) % 4294967296,
   (hs.2.2.2.2 + fin.2.2.2.2) % 4294967296)

/-- SHA-1 digest of a byte list, as twenty bytes. -/
def sha1 (msg : List Nat) : List Nat :=
  let padded := sha1Pad msg
  let chunks := (List.range (padded.length / 64)).map
    (fun c => (padded.drop (64 * c)).take 64)
  let hs := chunks.foldl sha1Compress
    (1732584193, 4023233417, 2562383102, 271733878, 3285377520)
  [hs.1, hs.2.1, hs.2.2.1, hs.2.2.2.1, hs.2.2.2.2].foldr
    (fun h acc => [(h >>> 24) % 256, (h >>> 16) % 256, (h >>> 8) % 256, h % 256] ++ acc) []

/-- `hmac.new(key, msg, hashlib.sha1).digest()`: keys longer than the
64-byte block are hashed first, then zero-padded; inner pad `0x36`,
outer pad `0x5c`. -/
def hmacSha1 (key msg : List Nat) : List Nat :=
  let k1 := if 64 < key.length then sha1 key else key
  let k2 := k1 ++ List.replicate (64 - k1.length) 0
  sha1 ((k2.map (fun b => b ^^^ 92)) ++ sha1 ((k2.map (fun b => b ^^^ 54)) ++ msg))

def b64Alphabet : List Char :=
  "ABCDEFGHIJKLMNOPQRSTUVWXYZabcdefghijklmnopqrstuvwxyz0123456789+/".data

def b64Char (i : Nat) : Char := b64Alphabet.getD i 'A'

/-- Standard base64 of a byte list (`base64.b64encode`), with `=`
padding. -/
def base64Chars : List Nat → List Char
  | [] => []
  | [x] => [b64Char (x >>> 2), b64Char ((x % 4) <<< 4), '=', '=']
  | [x, y] => [b64Char (x >>> 2), b64Char (((x % 4) <<< 4) ||| (y >>> 4)),
               b64Char ((y % 16) <<< 2), '=']
  | x :: y :: z :: rest =>
    [b64Char (x >>> 2), b64Char (((x % 4) <<< 4) ||| (y >>> 4)),
     b64Char ((((y % 16) <<< 2) ||| (z >>> 6))), b64Char (z % 64)] ++ base64Chars rest

def base64Encode (bytes : List Nat) : String := ⟨base64Chars bytes⟩

/-- UTF-8 encoding of one code point (`str.encode("utf-8")`
per character). -/
def utf8Char (c : Char) : List Nat :=
  let n := c.toNat
  if n < 128 then [n]
  else if n < 2048 then [192 ||| (n >>> 6), 128 ||| (n &&& 63)]
  else if n < 65536 then
    [224 ||| (n >>> 12), 128 ||| ((n >>> 6) &&& 63), 128 ||| (n &&& 63)]
  else
    [240 ||| (n >>> 18), 128 ||| ((n >>> 12) &&& 63), 128 ||| ((n >>> 6) &&& 63),
     128 ||| (n &&& 63)]

def utf8Bytes (s : String) : List Nat := (s.data.map utf8Char).flatten

/-! ## The Recognition Client: `get_acrcloud_signature`,
`recognize_track`, `recognize_segment_parallel` -/

/-- The module-level ACRCloud configuration read from the environment
(`ACR_ACCESS_KEY`, `ACR_ACCESS_SECRET`, `ACR_HOST`). -/
structure AcrEnv where
  accessKey : String
  accessSecret : String
  host : String
deriving DecidableEq, Repr

/-- The canonical string signed by `get_acrcloud_signature`:
`"POST\n/v1/identify\n{accessKey}\naudio\n1\n{timestamp}"` with the
timestamp `str(int(time.time()))`. -/
def stringToSign (accessKey : String) (timestamp : Nat) : String :=
  "POST\n/v1/identify\n" ++ accessKey ++ "\naudio\n1\n" ++ toString timestamp

/-- `get_acrcloud_signature`: raises `ValueError` (modelled as
`Except.error` with the message) when either credential is the empty
string (Python string falsiness), otherwise returns the base64-encoded
HMAC-SHA1 of the canonical string together with the timestamp. -/
def getAcrcloudSignature (env : AcrEnv) (now : Nat) :
    Except String (String × String) :=
  if env.accessKey = "" ∨ env.accessSecret = "" then
    Except.error "ACRCloud API credentials are missing. Check your .env file."
  else
    Except.ok
      (base64Encode (hmacSha1 (utf8Bytes env.accessSecret)
        (utf8Bytes (stringToSign env.accessKey now))), toString now)

/-- One network POST to ACRCloud, as observed by `recognize_track`: a
truthy response (status below 400) whose JSON body is summarised by the
only two key-membership tests the pipeline performs on it
(`"metadata" in result`, `"music" in result["metadata"]`), or a falsy
response (`if response:` fails). -/
inductive PostResult where
  | ok (hasMetadata : Bool) (hasMusic : Bool)
  | httpFail
deriving DecidableEq, Repr

/-- A Python dict as handled by the recognition path: either a service
response body (abstracted to the two key tests made on it) or one of the
dict literals `{"error": msg}` built by the code itself, whose only key
is `"error"`. -/
inductive PyDict where
  | svcBody (hasMetadata : Bool) (hasMusic : Bool)
  | errDict (msg : String)
deriving DecidableEq, Repr

/-- `"metadata" in result` for a dict. -/
def hasKeyMetadata : PyDict → Bool
  | PyDict.svcBody hm _ => hm
  | PyDict.errDict _ => false

/-- `"metadata" in result and "music" in result["metadata"]`, the guard
under which a segment result contributes a track in `/identify`. -/
def contributes : PyDict → Bool
  | PyDict.svcBody hm hmu => hm && hmu
  | PyDict.errDict _ => false

/-- A Python exception escaping the recognition path. -/
inductive PyError where
  | typeError (msg : String)
deriving DecidableEq, Repr

/-- Observable effect of one `recognize_track` call: its return value
(`none` models Python `None`), the number of network POSTs it made, and
the `time.sleep` durations it executed, in order. -/
structure TrackLog where
  result : Option PyDict
  posts : Nat
  sleeps : List Nat
deriving DecidableEq, Repr

/-- The `for _ in range(max_retries)` loop of `recognize_track`: each
iteration computes the signature (returning `{"error": str(e)}` on
`ValueError`, before any POST), performs one POST (`wire` maps the
per-segment POST counter to the network outcome), returns
`response.json()` on a truthy response, and otherwise sleeps 2 seconds
and retries; after the loop the function returns `None`. -/
def recognizeTrackGo (env : AcrEnv) (now : Nat) (wire : Nat → PostResult)
    (firstPost : Nat) : Nat → Nat → List Nat → TrackLog
  | 0, posts, sleeps => ⟨none, posts, sleeps⟩
  | fuel + 1, posts, sleeps =>
    match getAcrcloudSignature env now with
    | Except.error e => ⟨some (PyDict.errDict e), posts, sleeps⟩
    | Except.ok _ =>
      match wire (firstPost + posts) with
      | PostResult.ok hm hmu => ⟨some (PyDict.svcBody hm hmu), posts + 1, sleeps⟩
      | PostResult.httpFail =>
        recognizeTrackGo env now wire firstPost fuel (posts + 1) (sleeps ++ [2])

/-- `recognize_track(file_path, max_retries=3)`. -/
def recognizeTrack (env : AcrEnv) (now : Nat) (wire : Nat → PostResult)
    (firstPost : Nat) : TrackLog :=
  recognizeTrackGo env now wire firstPost 3 0 []

instance {ε α : Type} [DecidableEq ε] [DecidableEq α] : DecidableEq (Except ε α) :=
  fun x y =>
  match x, y with
  | Except.error a, Except.error b =>
    if h : a = b then isTrue (by rw [h])
    else isFalse (by intro hh; cases hh; exact h rfl)
  | Except.error _, Except.ok _ => isFalse (by intro hh; cases hh)
  | Except.ok _, Except.error _ => isFalse (by intro hh; cases hh)
  | Except.ok a, Except.ok b =>
    if h : a = b then isTrue (by rw [h])
    else isFalse (by intro hh; cases hh; exact h rfl)

/-- Observable effect of one `recognize_segment_parallel` call: its
outcome (`Except.error` models an uncaught exception), the number of
`recognize_track` calls it made, and the total number of network
POSTs. -/
structure SegLog where
  outcome : Except PyError PyDict
  trackCalls : Nat
  posts : Nat
deriving DecidableEq, Repr

/-- The `for _ in range(3)` loop of `recognize_segment_parallel`:
call `recognize_track`, evaluate `"metadata" in result` — which raises
`TypeError` when `recognize_track` returned `None` — return the result
when the key is present, otherwise sleep and retry; after three failed
rounds return `{"error": "Failed after 3 retries"}`. -/
def recognizeSegGo (env : AcrEnv) (now : Nat) (wire : Nat → PostResult) :
    Nat → Nat → Nat → SegLog
  | 0, calls, posts => ⟨Except.ok (PyDict.errDict "Failed after 3 retries"), calls, posts⟩
  | fuel + 1, calls, posts =>
    let tl := recognizeTrack env now wire posts
    match tl.result with
    | none =>
      ⟨Except.error (PyError.typeError "argument of type NoneType is not iterable"),
        calls + 1, posts + tl.posts⟩
    | some d =>
      if hasKeyMetadata d then ⟨Except.ok d, calls + 1, posts + tl.posts⟩
      else recognizeSegGo env now wire fuel (calls + 1) (posts + tl.posts)

/-- `recognize_segment_parallel(segment)`. -/
def recognizeSegmentParallel (env : AcrEnv) (now : Nat) (wire : Nat → PostResult) :
    SegLog :=
  recognizeSegGo env now wire 3 0 0

/-- The `for result in results` loop of `/identify` over the generator
returned by `executor.map`: outcomes are consumed in segment order and
the first uncaught worker exception re-raises there, aborting the
request. -/
def collectResults : List (Except PyError PyDict) → Except PyError (List PyDict)
  | [] => Except.ok []
  | Except.error e :: _ => Except.error e
  | Except.ok d :: rest => (collectResults rest).map (fun l => d :: l)

/-- The recognition phase of `/identify`: run
`recognize_segment_parallel` for every segment (each segment's network
behaviour is its own `wire` function) and consume the outcomes in
order. -/
def runRecognitionPhase (env : AcrEnv) (now : Nat)
    (segWires : List (Nat → PostResult)) : Except PyError (List PyDict) :=
  collectResults (segWires.map (fun w => (recognizeSegmentParallel env now w).outcome))

/-! ## The Dispatcher: `executor.map` over segments

`ThreadPoolExecutor.map` creates one future per segment in input order
and yields their results in that same input order, whatever order the
workers complete in.  The embedding makes the completion order explicit:
`order` lists the indices in the order the workers finish, each
completion writes its result into the slot of its own index, and the
output is read slot by slot after all workers are done. -/

/-- Positional write-once slot update (out-of-range writes cannot occur
for a completion order drawn from the future indices, and are modelled
as no-ops). -/
def setSlot {β : Type} : List (Option β) → Nat → β → List (Option β)
  | [], _, _ => []
  | _ :: rest, 0, v => some v :: rest
  | o :: rest, n + 1, v => o :: setSlot rest n v

/-- Write every completed result into the slot of its originating
segment index, in completion order. -/
def writeAll {α β : Type} (f : α → β) (segs : List α) (order : List Nat)
    (slots : List (Option β)) : List (Option β) :=
  order.foldl
    (fun sl i =>
      match segs.get? i with
      | some s => setSlot sl i (f s)
      | none => sl)
    slots

/-- Read the result slots after the pool has drained; `none` would mean
a segment never completed. -/
def collectSlots {β : Type} : List (Option β) → Option (List β)
  | [] => some []
  | none :: _ => none
  | some v :: rest => (collectSlots rest).map (fun l => v :: l)

/-- The dispatcher: outcomes of `f` over `segs`, completed in the order
`order`, re-read by ascending segment index. -/
def dispatchAll {α β : Type} (f : α → β) (segs : List α) (order : List Nat) :
    Option (List β) :=
  collectSlots (writeAll f segs order (List.replicate segs.length none))

/-! ## Theorems -/

/-- With nonempty credentials the signature call succeeds. -/
theorem getSig_ok (env : AcrEnv) (now : Nat) (h1 : env.accessKey ≠ "")
    (h2 : env.accessSecret ≠ "") :
    getAcrcloudSignature env now =
      Except.ok
        (base64Encode (hmacSha1 (utf8Bytes env.accessSecret)
          (utf8Bytes (stringToSign env.accessKey now))), toString now) := by
  simp [getAcrcloudSignature, h1, h2]

/-- With valid credentials and every POST failing transiently,
`recognize_track` performs exactly 3 attempts separated by 2-second
sleeps and then returns `None`. -/
theorem recognizeTrack_exhausted (env : AcrEnv) (now : Nat)
    (wire : Nat → PostResult) (firstPost : Nat) (h1 : env.accessKey ≠ "")
    (h2 : env.accessSecret ≠ "") (hw : ∀ n, wire n = PostResult.httpFail) :
    recognizeTrack env now wire firstPost = ⟨none, 3, [2, 2, 2]⟩ := by
  simp [recognizeTrack, recognizeTrackGo, getSig_ok env now h1 h2, hw]

/-- C1: the spec claims that a segment whose recognition attempts all
fail transiently is retried up to the fixed bound of 3 attempts with a
2-unit delay and then yields a terminal transient-error outcome, the
segment contributing nothing while the run continues without raising.
The code indeed makes exactly 3 POSTs with 2-second sleeps, but
`recognize_track` then returns `None`, so `recognize_segment_parallel`
evaluates `"metadata" in None`, raises `TypeError`, and the whole
`/identify` run aborts instead of continuing — the terminal
`{"error": "Failed after 3 retries"}` outcome intended by the code is
unreachable on this path. -/
theorem c1_transient_exhaustion_raises (env : AcrEnv) (now : Nat)
    (wire : Nat → PostResult) (rest : List (Nat → PostResult))
    (h1 : env.accessKey ≠ "") (h2 : env.accessSecret ≠ "")
    (hw : ∀ n, wire n = PostResult.httpFail) :
    recognizeTrack env now wire 0 = ⟨none, 3, [2, 2, 2]⟩ ∧
    (recognizeSegmentParallel env now wire).outcome =
      Except.error (PyError.typeError "argument of type NoneType is not iterable") ∧
    runRecognitionPhase env now (wire :: rest) =
      Except.error (PyError.typeError "argument of type NoneType is not iterable") := by
  have htr := recognizeTrack_exhausted env now wire 0 h1 h2 hw
  refine ⟨htr, ?_, ?_⟩
  · simp [recognizeSegmentParallel, recognizeSegGo, htr]
  · simp [runRecognitionPhase, collectResults, recognizeSegmentParallel,
      recognizeSegGo, htr]

/-- Witness for C1 at a concrete environment and an all-transient
wire. -/
theorem c1_witness :
    recognizeTrack ⟨"k", "s", "h"⟩ 7 (fun _ => PostResult.httpFail) 0 =
      ⟨none, 3, [2, 2, 2]⟩ ∧
    (recognizeSegmentParallel ⟨"k", "s", "h"⟩ 7 (fun _ => PostResult.httpFail)).outcome =
      Except.error (PyError.typeError "argument of type NoneType is not iterable") ∧
    runRecognitionPhase ⟨"k", "s", "h"⟩ 7
        [fun _ => PostResult.httpFail, fun _ => PostResult.ok true true] =
      Except.error (PyError.typeError "argument of type NoneType is not iterable") :=
  c1_transient_exhaustion_raises ⟨"k", "s", "h"⟩ 7 (fun _ => PostResult.httpFail)
    [fun _ => PostResult.ok true true] (by decide) (by decide) (fun _ => rfl)

/-- With missing credentials one `recognize_track` call fails closed
before any POST and returns the `ValueError` message as an error
dict. -/
theorem recognizeTrack_noCreds (env : AcrEnv) (now : Nat)
    (wire : Nat → PostResult) (firstPost : Nat)
    (h : env.accessKey = "" ∨ env.accessSecret = "") :
    recognizeTrack env now wire firstPost =
      ⟨some (PyDict.errDict "ACRCloud API credentials are missing. Check your .env file."),
        0, []⟩ := by
  have : getAcrcloudSignature env now =
      Except.error "ACRCloud API credentials are missing. Check your .env file." := by
    simp [getAcrcloudSignature, h]
  simp [recognizeTrack, recognizeTrackGo, this]

/-- With missing credentials a segment makes zero POSTs, retries the
failing call three times at the segment level, and ends in the
`{"error": "Failed after 3 retries"}` outcome without raising. -/
theorem recognizeSeg_noCreds (env : AcrEnv) (now : Nat)
    (wire : Nat → PostResult) (h : env.accessKey = "" ∨ env.accessSecret = "") :
    recognizeSegmentParallel env now wire =
      ⟨Except.ok (PyDict.errDict "Failed after 3 retries"), 3, 0⟩ := by
  simp [recognizeSegmentParallel, recognizeSegGo,
    recognizeTrack_noCreds env now wire _ h, hasKeyMetadata]

/-- `collectResults` of identical successful outcomes. -/
theorem collectResults_replicate (n : Nat) (d : PyDict) :
    collectResults (List.replicate n (Except.ok d)) =
      Except.ok (List.replicate n d) := by
  induction n with
  | zero => rfl
  | succ n ih => simp [List.replicate_succ, collectResults, ih, Except.map]

/-- C2 (amended): with missing or empty credentials every recognition
call fails closed before any network request (zero POSTs are made), but
— contrary to the original claim — the fatal error is retried three
times per segment at the `recognize_segment_parallel` level and does not
abort the run: every segment is still processed, each ending in an
error outcome that contributes nothing to the tracklist. -/
theorem c2_noCreds_all_segments_processed (env : AcrEnv) (now : Nat)
    (segWires : List (Nat → PostResult))
    (h : env.accessKey = "" ∨ env.accessSecret = "") :
    runRecognitionPhase env now segWires =
      Except.ok (List.replicate segWires.length
        (PyDict.errDict "Failed after 3 retries")) ∧
    (∀ w ∈ segWires, (recognizeSegmentParallel env now w).posts = 0 ∧
      (recognizeSegmentParallel env now w).trackCalls = 3) ∧
    (List.replicate segWires.length
        (PyDict.errDict "Failed after 3 retries")).filter contributes = [] := by
  refine ⟨?_, ?_, ?_⟩
  · have hmap : segWires.map (fun w => (recognizeSegmentParallel env now w).outcome) =
        List.replicate segWires.length
          (Except.ok (PyDict.errDict "Failed after 3 retries")) := by
      rw [List.eq_replicate_iff]
      refine ⟨by simp, ?_⟩
      intro b hb
      rcases List.mem_map.mp hb with ⟨w, _, hw⟩
      rw [← hw, recognizeSeg_noCreds env now w h]
    rw [runRecognitionPhase, hmap, collectResults_replicate]
  · intro w _
    rw [recognizeSeg_noCreds env now w h]
    exact ⟨rfl, rfl⟩
  · induction segWires.length with
    | zero => rfl
    | succ n ih => simp [List.replicate_succ, contributes, ih]

/-- Witness for the amended C2 at a concrete empty-key environment and
two segments. -/
theorem c2_witness :
    runRecognitionPhase ⟨"", "s", "h"⟩ 7
        [fun _ => PostResult.ok true true, fun _ => PostResult.httpFail] =
      Except.ok (List.replicate 2 (PyDict.errDict "Failed after 3 retries")) ∧
    (∀ w ∈ [fun _ => PostResult.ok true true, fun _ => PostResult.httpFail],
      (recognizeSegmentParallel ⟨"", "s", "h"⟩ 7 w).posts = 0 ∧
      (recognizeSegmentParallel ⟨"", "s", "h"⟩ 7 w).trackCalls = 3) ∧
    (List.replicate 2 (PyDict.errDict "Failed after 3 retries")).filter contributes
      = [] :=
  c2_noCreds_all_segments_processed ⟨"", "s", "h"⟩ 7
    [fun _ => PostResult.ok true true, fun _ => PostResult.httpFail] (Or.inl rfl)

/-- C2 (counterexample to the original claim): with empty credentials
the failing call is retried — `recognize_segment_parallel` invokes
`recognize_track` 3 times, not once — and the run is not aborted: with
two segments queued, both are processed to completion and the phase
returns normally with two error outcomes, instead of stopping after the
first fatal error. -/
theorem c2_counterexample :
    (recognizeSegmentParallel ⟨"", "", "h"⟩ 0 (fun _ => PostResult.httpFail)).trackCalls
        = 3 ∧
    runRecognitionPhase ⟨"", "", "h"⟩ 0
        [fun _ => PostResult.httpFail, fun _ => PostResult.httpFail] =
      Except.ok [PyDict.errDict "Failed after 3 retries",
        PyDict.errDict "Failed after 3 retries"] := by
  constructor
  · rw [recognizeSeg_noCreds ⟨"", "", "h"⟩ 0 _ (Or.inl rfl)]
  · rfl

/-- C9: signature generation is a pure deterministic function of
`(accessKey, secret, timestamp)` with no hidden state: two runs under
environments agreeing on the credentials, at the same timestamp, yield
the identical result, and that result is the base64-encoded HMAC-SHA1
of the canonical string `"POST\n/v1/identify\n{key}\naudio\n1\n{ts}"`
under the secret. -/
theorem c9_signature_deterministic (e1 e2 : AcrEnv) (t1 t2 : Nat)
    (hk : e1.accessKey = e2.accessKey) (hs : e1.accessSecret = e2.accessSecret)
    (ht : t1 = t2) (h1 : e1.accessKey ≠ "") (h2 : e1.accessSecret ≠ "") :
    getAcrcloudSignature e1 t1 = getAcrcloudSignature e2 t2 ∧
    getAcrcloudSignature e1 t1 =
      Except.ok
        (base64Encode (hmacSha1 (utf8Bytes e1.accessSecret)
          (utf8Bytes (stringToSign e1.accessKey t1))), toString t1) := by
  constructor
  · rw [getSig_ok e1 t1 h1 h2, getSig_ok e2 t2 (hk ▸ h1) (hs ▸ h2), hk, hs, ht]
  · exact getSig_ok e1 t1 h1 h2

/-- Witness for C9: two environments that differ in every field except
the credentials produce the same signature at the same timestamp. -/
theorem c9_witness :
    getAcrcloudSignature ⟨"key", "secret", "hostA"⟩ 1234567890 =
      getAcrcloudSignature ⟨"key", "secret", "hostB"⟩ 1234567890 ∧
    getAcrcloudSignature ⟨"key", "secret", "hostA"⟩ 1234567890 =
      Except.ok
        (base64Encode (hmacSha1 (utf8Bytes "secret")
          (utf8Bytes (stringToSign "key" 1234567890))), toString 1234567890) :=
  c9_signature_deterministic ⟨"key", "secret", "hostA"⟩ ⟨"key", "secret", "hostB"⟩
    1234567890 1234567890 rfl rfl rfl (by decide) (by decide)

/-- The embedded HMAC-SHA1/base64 stack reproduces the reference value
computed by `hmac`, `hashlib` and `base64` of the Python standard
library on the canonical string for `("key", "secret", 1234567890)`. -/
theorem signature_reference_vector :
    base64Encode (hmacSha1 (utf8Bytes "secret")
        (utf8Bytes (stringToSign "key" 1234567890))) =
      "SsfyZ65qc+em+8Fgm1MDOARL3h8=" := by
  set_option maxRecDepth 100000 in decide

/-- Closed form of the `segment_audio` loop: from `start`, with positive
step at most the window width and enough fuel, it emits windows at
`start, start + step, start + 2 * step, …`, each clipped to `total`; all
but the last window end strictly before `total`, at least one window is
emitted iff `start < total`, and the last window starts before `total`
and reaches it. -/
theorem segLoop_char (w step total : Nat) (hs : 0 < step) (hsw : step ≤ w) :
    ∀ fuel start, total ≤ start + fuel →
    ∃ m, segLoop w step total fuel start =
        (List.range m).map
          (fun i => (start + i * step, min (start + i * step + w) total)) ∧
      (∀ i, i + 1 < m → start + i * step + w < total) ∧
      (0 < m ↔ start < total) ∧
      (0 < m → start + (m - 1) * step < total ∧
        total ≤ start + (m - 1) * step + w) := by
  intro fuel
  induction fuel with
  | zero =>
    intro start h
    refine ⟨0, by simp [segLoop], by omega, by omega, by omega⟩
  | succ fuel ih =>
    intro start h
    by_cases hst : start < total
    · by_cases he : min (start + w) total = total
      · refine ⟨1, ?_, by omega, by omega, ?_⟩
        · rw [show List.range 1 = [0] from rfl]
          simp [segLoop, hst, he]
        · intro _
          constructor
          · simpa using hst
          · simp only [Nat.sub_self, Nat.zero_mul]
            omega
      · obtain ⟨m', heq, hcond, hpos, hlast⟩ := ih (start + step) (by omega)
        have hwlt : start + w < total := by omega
        have hm' : 0 < m' := hpos.mpr (by omega)
        refine ⟨m' + 1, ?_, ?_, by omega, ?_⟩
        · have hunf : segLoop w step total (fuel + 1) start =
              (start, min (start + w) total) ::
                segLoop w step total fuel (start + step) := by
            simp [segLoop, hst, he]
          rw [hunf, heq, List.range_succ_eq_map, List.map_cons, List.map_map]
          refine congrArg₂ _ (by simp) (List.map_congr_left ?_)
          intro i _
          have harg : start + Nat.succ i * step = start + step + i * step := by
            rw [Nat.succ_mul]; omega
          simp only [Function.comp_apply, harg]
        · intro i hi
          match i with
          | 0 => simpa using hwlt
          | Nat.succ j =>
            have harg : start + Nat.succ j * step = start + step + j * step := by
              rw [Nat.succ_mul]; omega
            rw [harg]
            exact hcond j (by omega)
        · intro _
          obtain ⟨k, rfl⟩ : ∃ k, m' = k + 1 := ⟨m' - 1, by omega⟩
          have harg : start + (k + 1 + 1 - 1) * step = start + step + (k + 1 - 1) * step := by
            simp only [Nat.add_sub_cancel]
            rw [Nat.add_mul]
            omega
          rw [harg]
          exact hlast hm'
    · refine ⟨0, by simp [segLoop, hst], by omega, by omega, by omega⟩

/-- Closed form of `segment_audio` under the constraint
`overlap < segment_length`. -/
theorem segmentAudio_char (total L o : Nat) (h : o < L) :
    ∃ m, segmentAudio total L o =
        (List.range m).map
          (fun i => (i * ((L - o) * 1000), min (i * ((L - o) * 1000) + L * 1000) total)) ∧
      (∀ i, i + 1 < m → i * ((L - o) * 1000) + L * 1000 < total) ∧
      (0 < m ↔ 0 < total) ∧
      (0 < m → (m - 1) * ((L - o) * 1000) < total ∧
        total ≤ (m - 1) * ((L - o) * 1000) + L * 1000) := by
  have hs : 0 < (L - o) * 1000 := by
    have : 0 < L - o := by omega
    omega
  have hsw : (L - o) * 1000 ≤ L * 1000 :=
    Nat.mul_le_mul_right 1000 (by omega)
  obtain ⟨m, heq, hcond, hpos, hlast⟩ :=
    segLoop_char (L * 1000) ((L - o) * 1000) total hs hsw total 0 (by omega)
  exact ⟨m, by simpa [segmentAudio] using heq, by simpa using hcond,
    hpos, by simpa using hlast⟩

/-- C5: for every source and every window/overlap pair with
`windowMs > overlapMs >= 0` (in `segment_audio` the parameters are
seconds, so `windowMs = segmentLength * 1000` and
`overlapMs = overlap * 1000` with `overlap < segmentLength`), the
produced windows are nonempty and never exceed `totalMs`, are strictly
ordered by start (hence by index), cover every millisecond of
`[0, totalMs)` — so no sample at the end of the source is dropped — a
window exists iff the source is nonempty, the final window ends exactly
at `totalMs`, and any instant covered by two distinct windows lies
within the first `overlapMs` milliseconds of the later window (the
overlap region); outside overlap regions coverage is unique. -/
theorem c5_segmenter_windows (total L o : Nat) (h : o < L) :
    (∀ p ∈ segmentAudio total L o, p.1 < p.2 ∧ p.2 ≤ total) ∧
    List.Pairwise (fun p q : Nat × Nat => p.1 < q.1) (segmentAudio total L o) ∧
    (∀ t, t < total → ∃ p ∈ segmentAudio total L o, p.1 ≤ t ∧ t < p.2) ∧
    (segmentAudio total L o = [] ↔ total = 0) ∧
    (∀ hne : segmentAudio total L o ≠ [],
      ((segmentAudio total L o).getLast hne).2 = total) ∧
    (∀ i j : Nat, ∀ hi : i < (segmentAudio total L o).length,
      ∀ hj : j < (segmentAudio total L o).length, i < j →
      ∀ t, ((segmentAudio total L o).get ⟨j, hj⟩).1 ≤ t →
        t < ((segmentAudio total L o).get ⟨i, hi⟩).2 →
        t < ((segmentAudio total L o).get ⟨j, hj⟩).1 + o * 1000) := by
  obtain ⟨m, heq, hcond, hpos, hlast⟩ := segmentAudio_char total L o h
  have hs : 0 < (L - o) * 1000 := by
    have : 0 < L - o := by omega
    omega
  have hstep_lt : ∀ i, i < m → i * ((L - o) * 1000) < total := by
    intro i hi
    rcases Nat.lt_or_ge (i + 1) m with h1 | h1
    · have := hcond i h1
      omega
    · have hieq : i = m - 1 := by omega
      subst hieq
      exact (hlast (by omega)).1
  have hlen : (segmentAudio total L o).length = m := by rw [heq]; simp
  have hget : ∀ (idx : Nat) (hidx : idx < (segmentAudio total L o).length),
      (segmentAudio total L o).get ⟨idx, hidx⟩ =
        (idx * ((L - o) * 1000), min (idx * ((L - o) * 1000) + L * 1000) total) := by
    intro idx hidx
    have hidx' : idx < m := by rwa [hlen] at hidx
    have h1 : (segmentAudio total L o).get? idx =
        some ((segmentAudio total L o).get ⟨idx, hidx⟩) := List.get?_eq_get hidx
    have h2 : (segmentAudio total L o).get? idx =
        some (idx * ((L - o) * 1000), min (idx * ((L - o) * 1000) + L * 1000) total) := by
      rw [heq, List.get?_map, List.get?_range hidx']
      rfl
    exact Option.some.inj (h1.symm.trans h2)
  refine ⟨?_, ?_, ?_, ?_, ?_, ?_⟩
  · intro p hp
    rw [heq] at hp
    rcases List.mem_map.mp hp with ⟨i, hi, rfl⟩
    have him : i < m := List.mem_range.mp hi
    have := hstep_lt i him
    constructor
    · have hw : 0 < L * 1000 := by omega
      omega
    · omega
  · rw [heq, List.pairwise_map]
    refine List.Pairwise.imp ?_ (List.pairwise_lt_range m)
    intro i j hij
    simpa using (Nat.mul_lt_mul_right hs).mpr hij
  · intro t ht
    have hm : 0 < m := hpos.mpr (by omega)
    set step := (L - o) * 1000 with hstepdef
    refine ⟨(min (t / step) (m - 1) * step,
      min (min (t / step) (m - 1) * step + L * 1000) total), ?_, ?_, ?_⟩
    · rw [heq]
      exact List.mem_map.mpr ⟨min (t / step) (m - 1), List.mem_range.mpr (by omega), rfl⟩
    · rcases Nat.le_total (t / step) (m - 1) with hc | hc
      · rw [Nat.min_eq_left hc]
        exact Nat.div_mul_le_self t step
      · rw [Nat.min_eq_right hc]
        exact Nat.le_trans (Nat.mul_le_mul_right step hc) (Nat.div_mul_le_self t step)
    · have hq := Nat.div_add_mod t step
      have hr : t % step < step := Nat.mod_lt t hs
      rcases Nat.le_total (t / step) (m - 1) with hc | hc
      · rw [Nat.min_eq_left hc]
        have hmul : step * (t / step) = t / step * step := Nat.mul_comm _ _
        have hwide : step ≤ L * 1000 := Nat.mul_le_mul_right 1000 (by omega)
        omega
      · rw [Nat.min_eq_right hc]
        have := (hlast hm).2
        omega
  · rw [heq]
    constructor
    · intro hnil
      by_contra hzero
      have hm : 0 < m := hpos.mpr (by omega)
      obtain ⟨k, rfl⟩ : ∃ k, m = k + 1 := ⟨m - 1, by omega⟩
      simp [List.range_succ] at hnil
    · intro hzero
      have : m = 0 := by
        by_contra hmne
        exact absurd (hpos.mp (by omega)) (by omega)
      simp [this]
  · intro hne
    have hm : 0 < m := by
      by_contra hmz
      have h0 : m = 0 := by omega
      rw [heq, h0] at hne
      simp at hne
    have hlpos : 0 < (segmentAudio total L o).length := by omega
    rw [List.getLast_eq_get, hget ((segmentAudio total L o).length - 1) (by omega)]
    simp only [hlen]
    exact Nat.min_eq_right (hlast hm).2
  · intro i j hi hj hij t hjt hit
    rw [hget i hi] at hit
    rw [hget j hj] at hjt ⊢
    have hmono : (i + 1) * ((L - o) * 1000) ≤ j * ((L - o) * 1000) :=
      Nat.mul_le_mul_right _ (by omega)
    have hsplit : (i + 1) * ((L - o) * 1000) = i * ((L - o) * 1000) + (L - o) * 1000 := by
      rw [Nat.add_mul]; omega
    have hwo : L * 1000 = (L - o) * 1000 + o * 1000 := by
      have : (L - o) + o = L := by omega
      calc L * 1000 = ((L - o) + o) * 1000 := by rw [this]
        _ = (L - o) * 1000 + o * 1000 := by rw [Nat.add_mul]
    omega

/-- Witness for C5 at the 45-second source of the spec scenario,
windowed at 20 seconds with no overlap. -/
theorem c5_witness :
    (∀ p ∈ segmentAudio 45000 20 0, p.1 < p.2 ∧ p.2 ≤ 45000) ∧
    List.Pairwise (fun p q : Nat × Nat => p.1 < q.1) (segmentAudio 45000 20 0) ∧
    (∀ t, t < 45000 → ∃ p ∈ segmentAudio 45000 20 0, p.1 ≤ t ∧ t < p.2) ∧
    (segmentAudio 45000 20 0 = [] ↔ (45000 : Nat) = 0) ∧
    (∀ hne : segmentAudio 45000 20 0 ≠ [],
      ((segmentAudio 45000 20 0).getLast hne).2 = 45000) ∧
    (∀ i j : Nat, ∀ hi : i < (segmentAudio 45000 20 0).length,
      ∀ hj : j < (segmentAudio 45000 20 0).length, i < j →
      ∀ t, ((segmentAudio 45000 20 0).get ⟨j, hj⟩).1 ≤ t →
        t < ((segmentAudio 45000 20 0).get ⟨i, hi⟩).2 →
        t < ((segmentAudio 45000 20 0).get ⟨j, hj⟩).1 + 0 * 1000) :=
  c5_segmenter_windows 45000 20 0 (by decide)

/-- C6 (counterexample to the original claim): a source of duration
`0 <= windowMs` yields zero segments, not exactly one. -/
theorem c6_counterexample :
    (0 : Nat) ≤ 20 * 1000 ∧ segmentAudio 0 20 0 = [] ∧
      ¬ (segmentAudio 0 20 0).length = 1 := by
  refine ⟨by decide, rfl, by decide⟩

/-- C6 (amended): for every source of positive duration at most the
window length, the Segmenter produces exactly one segment, and that
segment covers the whole source. -/
theorem c6_single_window (total L o : Nat) (h : o < L) (hpos : 0 < total)
    (hle : total ≤ L * 1000) :
    segmentAudio total L o = [(0, total)] := by
  obtain ⟨n, rfl⟩ : ∃ n, total = n + 1 := ⟨total - 1, by omega⟩
  have hmin : min (0 + L * 1000) (n + 1) = n + 1 := by omega
  simp [segmentAudio, segLoop, hmin]
  exact ⟨hle, fun hcontra => absurd hcontra (by omega)⟩

/-- Witness for the amended C6 on a 5-second source with a 20-second
window. -/
theorem c6_witness : segmentAudio 5000 20 0 = [(0, 5000)] :=
  c6_single_window 5000 20 0 (by decide) (by decide) (by decide)

/-- Updating the value stored under a key never changes the key
sequence of the accumulator. -/
theorem updateVal_fst (best : List (String × Track)) (key : String) (track : Track) :
    (updateVal best key track).map Prod.fst = best.map Prod.fst := by
  rw [updateVal, List.map_map]
  refine List.map_congr_left ?_
  intro kv _
  by_cases hk : kv.1 = key <;> simp [hk]

/-- `l.any p` succeeds exactly when `l.find? p` finds something. -/
theorem find?_any {α : Type} (p : α → Bool) (l : List α) :
    l.any p = (l.find? p).isSome := by
  induction l with
  | nil => rfl
  | cons a l ih => by_cases hp : p a <;> simp [List.find?_cons, hp, ih]

/-- One merge step changes the key sequence exactly as the key-only
automaton `keyStep` does: matched tracks (exactly or fuzzily) leave the
keys untouched, fresh tracks append their title. -/
theorem mergeStep_fst (best : List (String × Track)) (track : Track) :
    (mergeStep best track).map Prod.fst = keyStep (best.map Prod.fst) track := by
  cases hfind : best.find? (fun kv => kv.1 == track.title) with
  | some kv =>
    have hany : (best.map Prod.fst).any (fun k => k == track.title) = true :=
      List.any_eq_true.mpr ⟨kv.1,
        List.mem_map_of_mem Prod.fst (List.mem_of_find?_eq_some hfind),
        by simpa using List.find?_some hfind⟩
    simp only [mergeStep, keyStep, hfind, hany, if_true]
    split_ifs <;> simp [updateVal_fst]
  | none =>
    have hany : (best.map Prod.fst).any (fun k => k == track.title) = false := by
      rw [List.any_eq_false]
      intro x hx
      rcases List.mem_map.mp hx with ⟨kv, hkv, rfl⟩
      exact List.find?_eq_none.mp hfind kv hkv
    cases hfind2 : best.find? (fun kv =>
        decide (80 < partRatioNat (lowerS track.title) (lowerS kv.1))) with
    | some kv =>
      have hany2 : (best.map Prod.fst).any
          (fun k => decide (80 < partRatioNat (lowerS track.title) (lowerS k))) = true :=
        List.any_eq_true.mpr ⟨kv.1,
          List.mem_map_of_mem Prod.fst (List.mem_of_find?_eq_some hfind2),
          by simpa using List.find?_some hfind2⟩
      simp only [mergeStep, keyStep, hfind, hfind2, hany, hany2,
        Bool.false_eq_true, if_false, if_true]
      split_ifs <;> simp [updateVal_fst]
    | none =>
      have hany2 : (best.map Prod.fst).any
          (fun k => decide (80 < partRatioNat (lowerS track.title) (lowerS k))) = false := by
        rw [List.any_eq_false]
        intro x hx
        rcases List.mem_map.mp hx with ⟨kv, hkv, rfl⟩
        exact List.find?_eq_none.mp hfind2 kv hkv
      simp only [mergeStep, keyStep, hfind, hfind2, hany, hany2,
        Bool.false_eq_true, if_false]
      simp

/-- Folding tracks through `mergeStep` drives the key sequence through
`keyStep`. -/
theorem foldl_mergeStep_fst (x : List Track) :
    ∀ best : List (String × Track),
      (x.foldl mergeStep best).map Prod.fst = x.foldl keyStep (best.map Prod.fst) := by
  induction x with
  | nil => intro best; rfl
  | cons t x ih =>
    intro best
    simp only [List.foldl_cons]
    rw [ih, mergeStep_fst]

/-- C7: the Tracklist produced by `merge_consecutive_tracks` lists its
entries in the temporal order in which each distinct (canonical) track
was first recognized: the output is the value column of the
accumulator, whose key column equals `canonicalOrder` — the first-seen
insertion order of canonical titles, computed without looking at
confidences — so output order is insertion order, not confidence or
alphabetical order. -/
theorem c7_output_insertion_order (x : List Track) :
    mergeConsecutiveTracks x = (x.foldl mergeStep []).map Prod.snd ∧
    (x.foldl mergeStep []).map Prod.fst = canonicalOrder x ∧
    (mergeConsecutiveTracks x).length = (canonicalOrder x).length := by
  have hkeys : (x.foldl mergeStep []).map Prod.fst = canonicalOrder x := by
    simpa [canonicalOrder] using foldl_mergeStep_fst x []
  refine ⟨rfl, hkeys, ?_⟩
  rw [mergeConsecutiveTracks, List.length_map, ← hkeys, List.length_map]

/-- Every pair stored by one merge step carries either a previously
stored track or the incoming one. -/
theorem mergeStep_snd_mem (best : List (String × Track)) (t : Track) :
    ∀ kv ∈ mergeStep best t, kv.2 ∈ best.map Prod.snd ∨ kv.2 = t := by
  have hupd : ∀ key, ∀ kv ∈ updateVal best key t,
      kv.2 ∈ best.map Prod.snd ∨ kv.2 = t := by
    intro key kv hkv
    rcases List.mem_map.mp hkv with ⟨kv0, hkv0, rfl⟩
    by_cases hk : kv0.1 = key
    · simp [hk]
    · simp only [hk, if_false]
      exact Or.inl (List.mem_map_of_mem Prod.snd hkv0)
  intro kv
  cases hfind : best.find? (fun kv => kv.1 == t.title) with
  | some kv1 =>
    simp only [mergeStep, hfind]
    split_ifs with h
    · exact hupd kv1.1 kv
    · exact fun hkv => Or.inl (List.mem_map_of_mem Prod.snd hkv)
  | none =>
    cases hfind2 : best.find? (fun kv =>
        decide (80 < partRatioNat (lowerS t.title) (lowerS kv.1))) with
    | some kv1 =>
      simp only [mergeStep, hfind, hfind2]
      split_ifs with h h2 h3
      · exact hupd kv1.1 kv
      · exact hupd kv1.1 kv
      · exact fun hkv => Or.inl (List.mem_map_of_mem Prod.snd hkv)
      · exact fun hkv => Or.inl (List.mem_map_of_mem Prod.snd hkv)
    | none =>
      simp only [mergeStep, hfind, hfind2]
      intro hkv
      rcases List.mem_append.mp hkv with hmem | hmem
      · exact Or.inl (List.mem_map_of_mem Prod.snd hmem)
      · right
        rw [List.mem_singleton] at hmem
        rw [hmem]

/-- One merge step grows the accumulator by at most one entry. -/
theorem mergeStep_length (best : List (String × Track)) (t : Track) :
    (mergeStep best t).length ≤ best.length + 1 := by
  cases hfind : best.find? (fun kv => kv.1 == t.title) with
  | some kv1 =>
    simp only [mergeStep, hfind]
    split_ifs <;> simp [updateVal]
  | none =>
    cases hfind2 : best.find? (fun kv =>
        decide (80 < partRatioNat (lowerS t.title) (lowerS kv.1))) with
    | some kv1 =>
      simp only [mergeStep, hfind, hfind2]
      split_ifs <;> simp [updateVal]
    | none =>
      simp [mergeStep, hfind, hfind2]

/-- Fold-level conservativity: every stored track comes from the
accumulator or the input, and the accumulator grows by at most the
number of processed tracks. -/
theorem foldl_mergeStep_conservative (x : List Track) :
    ∀ best : List (String × Track),
      (∀ kv ∈ x.foldl mergeStep best, kv.2 ∈ best.map Prod.snd ∨ kv.2 ∈ x) ∧
      (x.foldl mergeStep best).length ≤ best.length + x.length := by
  induction x with
  | nil =>
    intro best
    exact ⟨fun kv hkv => Or.inl (List.mem_map_of_mem Prod.snd hkv), by simp⟩
  | cons t x ih =>
    intro best
    simp only [List.foldl_cons]
    constructor
    · intro kv hkv
      rcases (ih (mergeStep best t)).1 kv hkv with hmem | hx
      · rcases List.mem_map.mp hmem with ⟨kv1, hkv1, heq2⟩
        rcases mergeStep_snd_mem best t kv1 hkv1 with h1 | h1
        · exact Or.inl (heq2 ▸ h1)
        · right
          rw [← heq2, h1]
          exact List.mem_cons_self t x
      · exact Or.inr (List.mem_cons_of_mem t hx)
    · have h1 := (ih (mergeStep best t)).2
      have h2 := mergeStep_length best t
      simp only [List.length_cons]
      omega

/-- C10: the merge only selects among input tracks: every Track in the
output of `merge_consecutive_tracks` is an element of the input list,
with all of its fields (title, artist, confidence, streaming links)
unchanged, and consequently the output is never longer than the
input. -/
theorem c10_merge_conservative (x : List Track) :
    (∀ t ∈ mergeConsecutiveTracks x, t ∈ x) ∧
    (mergeConsecutiveTracks x).length ≤ x.length := by
  obtain ⟨hmem, hlen⟩ := foldl_mergeStep_conservative x []
  constructor
  · intro t ht
    rcases List.mem_map.mp ht with ⟨kv, hkv, rfl⟩
    rcases hmem kv hkv with h | h
    · simp at h
    · exact h
  · simpa [mergeConsecutiveTracks] using hlen

/-- C3 (counterexample to the original claim): the titles `"abcde"` and
`"abcdx"` have partial fuzzy similarity exactly 80/100 — the threshold —
yet `merge_consecutive_tracks` keeps them as two separate entries,
because the code merges only on similarity strictly above 80. -/
theorem c3_counterexample :
    partRatioNat (lowerS "abcdx") (lowerS "abcde") = 80 ∧
    mergeConsecutiveTracks
        [⟨"abcde", "a1", 50, none, none, none⟩,
         ⟨"abcdx", "a2", 60, none, none, none⟩] =
      [⟨"abcde", "a1", 50, none, none, none⟩,
       ⟨"abcdx", "a2", 60, none, none, none⟩] ∧
    ¬ (mergeConsecutiveTracks
        [⟨"abcde", "a1", 50, none, none, none⟩,
         ⟨"abcdx", "a2", 60, none, none, none⟩]).length = 1 := by
  refine ⟨by decide, by decide, by decide⟩

/-- C3 (amended): for an incoming track with no exact title match, a
strictly-above-80 partial fuzzy similarity to the existing canonical
title merges the two into one entry, while a similarity at or below 80
leaves them as separate entries. -/
theorem c3_fuzzy_threshold (t1 t2 : Track) (hne : t1.title ≠ t2.title) :
    (80 < partRatioNat (lowerS t2.title) (lowerS t1.title) →
      (mergeConsecutiveTracks [t1, t2]).length = 1) ∧
    (partRatioNat (lowerS t2.title) (lowerS t1.title) ≤ 80 →
      mergeConsecutiveTracks [t1, t2] = [t1, t2]) := by
  have hshape : mergeConsecutiveTracks [t1, t2] =
      (mergeStep [(t1.title, t1)] t2).map Prod.snd := rfl
  have hfind1 : List.find? (fun kv => kv.1 == t2.title) [(t1.title, t1)] = none := by
    rw [List.find?_eq_none]
    intro kv hkv
    rw [List.mem_singleton] at hkv
    rw [hkv]
    simpa using hne
  constructor
  · intro hgt
    have hfind2 : List.find?
        (fun kv => decide (80 < partRatioNat (lowerS t2.title) (lowerS kv.1)))
        [(t1.title, t1)] = some (t1.title, t1) := by
      apply List.find?_cons_of_pos
      simpa using hgt
    rw [hshape]
    simp only [mergeStep, hfind1, hfind2]
    split_ifs <;> simp [updateVal]
  · intro hle
    have hfind2 : List.find?
        (fun kv => decide (80 < partRatioNat (lowerS t2.title) (lowerS kv.1)))
        [(t1.title, t1)] = none := by
      rw [List.find?_eq_none]
      intro kv hkv
      rw [List.mem_singleton] at hkv
      rw [hkv]
      simpa using Nat.not_lt.mpr hle
    rw [hshape]
    simp [mergeStep, hfind1, hfind2]

/-- Witness for the amended C3 on a pair straddling the threshold from
below (similarity 0) and the exact-80 pair of the counterexample is
covered separately; here the theorem is applied at two concrete
dissimilar titles. -/
theorem c3_witness :
    ("abcde" : String) ≠ "vwxyz" ∧
    ((80 < partRatioNat (lowerS "vwxyz") (lowerS "abcde") →
      (mergeConsecutiveTracks
        [⟨"abcde", "a1", 50, none, none, none⟩,
         ⟨"vwxyz", "a2", 60, none, none, none⟩]).length = 1) ∧
    (partRatioNat (lowerS "vwxyz") (lowerS "abcde") ≤ 80 →
      mergeConsecutiveTracks
        [⟨"abcde", "a1", 50, none, none, none⟩,
         ⟨"vwxyz", "a2", 60, none, none, none⟩] =
      [⟨"abcde", "a1", 50, none, none, none⟩,
       ⟨"vwxyz", "a2", 60, none, none, none⟩])) :=
  ⟨by decide, c3_fuzzy_threshold
    ⟨"abcde", "a1", 50, none, none, none⟩
    ⟨"vwxyz", "a2", 60, none, none, none⟩ (by decide)⟩

/-- C4 (counterexample to the original claim): `merge(merge(x))` can
differ from `merge(x)`.  With `A = "fghij"` (confidence 1),
`B = "abcdefghij"` (confidence 2), `C = "abcdefghix"` (confidence 1):
`B` fuzzily matches the canonical key `"fghij"` (similarity 100) and
replaces its stored value, while `C` scores only 80 against that key
and is kept separate, so `merge(x) = [B, C]`; but the second pass
compares `C` against `B`'s own title (similarity 90 > 80) and absorbs
it, so `merge(merge(x)) = [B]`. -/
theorem c4_counterexample :
    mergeConsecutiveTracks (mergeConsecutiveTracks
        [⟨"fghij", "a1", 1, none, none, none⟩,
         ⟨"abcdefghij", "a2", 2, none, none, none⟩,
         ⟨"abcdefghix", "a3", 1, none, none, none⟩]) ≠
      mergeConsecutiveTracks
        [⟨"fghij", "a1", 1, none, none, none⟩,
         ⟨"abcdefghij", "a2", 2, none, none, none⟩,
         ⟨"abcdefghix", "a3", 1, none, none, none⟩] := by
  decide

/-- On a tracklist whose titles are pairwise distinct and pairwise at
most 80-similar, the fold only ever appends fresh entries. -/
theorem foldl_mergeStep_fresh (x : List Track) :
    ∀ best : List (String × Track),
    (∀ t ∈ x, ∀ kv ∈ best, kv.1 ≠ t.title ∧
      partRatioNat (lowerS t.title) (lowerS kv.1) ≤ 80) →
    pairwiseDissim x →
    x.foldl mergeStep best = best ++ x.map (fun t => (t.title, t)) := by
  induction x with
  | nil => intro best _ _; simp
  | cons t x ih =>
    intro best hfresh hpw
    have hfind1 : best.find? (fun kv => kv.1 == t.title) = none := by
      rw [List.find?_eq_none]
      intro kv hkv
      simpa using (hfresh t (List.mem_cons_self t x) kv hkv).1
    have hfind2 : best.find? (fun kv =>
        decide (80 < partRatioNat (lowerS t.title) (lowerS kv.1))) = none := by
      rw [List.find?_eq_none]
      intro kv hkv
      simpa using Nat.not_lt.mpr (hfresh t (List.mem_cons_self t x) kv hkv).2
    have hstep : mergeStep best t = best ++ [(t.title, t)] := by
      simp [mergeStep, hfind1, hfind2]
    have hpw' := (List.pairwise_cons.mp hpw)
    rw [List.foldl_cons, hstep,
      ih (best ++ [(t.title, t)]) ?_ hpw'.2]
    · simp
    · intro t' ht' kv hkv
      rcases List.mem_append.mp hkv with hmem | hmem
      · exact hfresh t' (List.mem_cons_of_mem t ht') kv hmem
      · rw [List.mem_singleton] at hmem
        rw [hmem]
        exact ⟨(hpw'.1 t' ht').1, (hpw'.1 t' ht').2⟩

/-- A pairwise-dissimilar tracklist passes through the merge
unchanged. -/
theorem merge_dissim_id (x : List Track) (hx : pairwiseDissim x) :
    mergeConsecutiveTracks x = x := by
  rw [mergeConsecutiveTracks, foldl_mergeStep_fresh x [] (by simp) hx]
  simp only [List.nil_append, List.map_map]
  have : (Prod.snd ∘ fun t : Track => (t.title, t)) = id := by
    funext t
    rfl
  rw [this, List.map_id]

/-- C4 (amended): the merge is idempotent on already-deduplicated input
in the sense of the similarity relation the code itself uses — on every
tracklist whose titles are pairwise distinct and pairwise at most
80-similar, `merge(merge(x)) = merge(x)` (indeed `merge(x) = x`).  On
general input idempotence fails, because replacing the stored value of
a canonical key can park a track under a key dissimilar to its own
title (see the counterexample). -/
theorem c4_merge_idempotent_dissim (x : List Track) (hx : pairwiseDissim x) :
    mergeConsecutiveTracks (mergeConsecutiveTracks x) = mergeConsecutiveTracks x := by
  rw [merge_dissim_id x hx, merge_dissim_id x hx]

/-- Witness for the amended C4 on two concrete dissimilar tracks. -/
theorem c4_witness :
    pairwiseDissim
      [⟨"abcde", "a1", 50, none, none, none⟩,
       ⟨"vwxyz", "a2", 60, none, none, none⟩] ∧
    mergeConsecutiveTracks (mergeConsecutiveTracks
        [⟨"abcde", "a1", 50, none, none, none⟩,
         ⟨"vwxyz", "a2", 60, none, none, none⟩]) =
      mergeConsecutiveTracks
        [⟨"abcde", "a1", 50, none, none, none⟩,
         ⟨"vwxyz", "a2", 60, none, none, none⟩] :=
  ⟨by decide, c4_merge_idempotent_dissim
    [⟨"abcde", "a1", 50, none, none, none⟩,
     ⟨"vwxyz", "a2", 60, none, none, none⟩] (by decide)⟩

theorem setSlot_length {β : Type} (l : List (Option β)) (i : Nat) (v : β) :
    (setSlot l i v).length = l.length := by
  induction l generalizing i with
  | nil => rfl
  | cons o rest ih =>
    cases i with
    | zero => rfl
    | succ n => simp [setSlot, ih]

theorem setSlot_get?_ne {β : Type} (l : List (Option β)) (i j : Nat) (v : β)
    (h : j ≠ i) : (setSlot l i v).get? j = l.get? j := by
  induction l generalizing i j with
  | nil => rfl
  | cons o rest ih =>
    cases i with
    | zero =>
      cases j with
      | zero => exact absurd rfl h
      | succ m => rfl
    | succ n =>
      cases j with
      | zero => rfl
      | succ m => exact ih n m (fun hh => h (by rw [hh]))

theorem setSlot_get?_eq {β : Type} (l : List (Option β)) (i : Nat) (v : β)
    (h : i < l.length) : (setSlot l i v).get? i = some (some v) := by
  induction l generalizing i with
  | nil => simp at h
  | cons o rest ih =>
    cases i with
    | zero => rfl
    | succ n => exact ih n (by simpa using h)

/-- One completion step of the dispatcher fold. -/
theorem writeAll_cons {α β : Type} (f : α → β) (segs : List α) (i : Nat)
    (order : List Nat) (slots : List (Option β)) :
    writeAll f segs (i :: order) slots =
      writeAll f segs order
        (match segs.get? i with
          | some s => setSlot slots i (f s)
          | none => slots) := rfl

theorem writeAll_length {α β : Type} (f : α → β) (segs : List α) (order : List Nat) :
    ∀ slots, (writeAll f segs order slots).length = slots.length := by
  induction order with
  | nil => intro slots; rfl
  | cons i order ih =>
    intro slots
    rw [writeAll_cons]
    cases hg : segs.get? i with
    | some s =>
      simp only [hg]
      rw [ih]
      exact setSlot_length slots i (f s)
    | none =>
      simp only [hg]
      exact ih slots

/-- A slot whose index never completes keeps its original content. -/
theorem writeAll_get?_notMem {α β : Type} (f : α → β) (segs : List α) :
    ∀ (order : List Nat) (slots : List (Option β)) (j : Nat), j ∉ order →
      (writeAll f segs order slots).get? j = slots.get? j := by
  intro order
  induction order with
  | nil => intro slots j _; rfl
  | cons i order ih =>
    intro slots j hj
    have hji : j ≠ i := fun hh => hj (hh ▸ List.mem_cons_self i order)
    have hjo : j ∉ order := fun hh => hj (List.mem_cons_of_mem i hh)
    rw [writeAll_cons]
    cases hg : segs.get? i with
    | some s =>
      simp only [hg]
      rw [ih _ j hjo]
      exact setSlot_get?_ne slots i j (f s) hji
    | none =>
      simp only [hg]
      exact ih _ j hjo

/-- A slot whose index completes at least once holds its segment's
outcome, written exactly at that index. -/
theorem writeAll_get?_mem {α β : Type} (f : α → β) (segs : List α) :
    ∀ (order : List Nat) (slots : List (Option β)) (i : Nat) (s : α),
      i ∈ order → segs.get? i = some s → slots.length = segs.length →
      (writeAll f segs order slots).get? i = some (some (f s)) := by
  intro order
  induction order with
  | nil => intro slots i s hmem; exact absurd hmem (List.not_mem_nil i)
  | cons j order ih =>
    intro slots i s hmem hget hlen
    have hilt : i < segs.length := by
      by_contra hge
      rw [List.get?_eq_none.mpr (by omega)] at hget
      cases hget
    rw [writeAll_cons]
    by_cases hio : i ∈ order
    · cases hg : segs.get? j with
      | some s2 =>
        simp only [hg]
        exact ih _ i s hio hget (by rw [setSlot_length]; exact hlen)
      | none =>
        simp only [hg]
        exact ih _ i s hio hget hlen
    · have hij : i = j := by
        rcases List.mem_cons.mp hmem with h | h
        · exact h
        · exact absurd h hio
      subst hij
      simp only [hget]
      rw [writeAll_get?_notMem f segs order _ i hio]
      exact setSlot_get?_eq slots i (f s) (by omega)

/-- Reading fully-written slots yields exactly the written values. -/
theorem collectSlots_map_some {β : Type} :
    ∀ l : List β, collectSlots (l.map some) = some l := by
  intro l
  induction l with
  | nil => rfl
  | cons a l ih => simp [collectSlots, ih]

/-- C8: for every segment list and every completion order that is a
permutation of the segment indices, the dispatcher produces exactly one
outcome per input segment — the output is `some (segs.map f)`, so its
length equals the input length and the outcome at every position is the
recognition result of the segment at that same position, regardless of
the order in which workers completed. -/
theorem c8_dispatch_order_independent {α β : Type} (f : α → β) (segs : List α)
    (order : List Nat) (hperm : order.Perm (List.range segs.length)) :
    dispatchAll f segs order = some (segs.map f) ∧
    (segs.map f).length = segs.length ∧
    (∀ i : Nat, ∀ h : i < segs.length,
      (segs.map f).get ⟨i, by simpa using h⟩ = f (segs.get ⟨i, h⟩)) := by
  have hwrite : writeAll f segs order (List.replicate segs.length none) =
      (segs.map f).map some := by
    apply List.ext_get?
    intro j
    by_cases hj : j < segs.length
    · have hmem : j ∈ order := hperm.mem_iff.mpr (List.mem_range.mpr hj)
      obtain ⟨s, hs⟩ : ∃ s, segs.get? j = some s :=
        ⟨segs.get ⟨j, hj⟩, List.get?_eq_get hj⟩
      rw [writeAll_get?_mem f segs order _ j s hmem hs (by simp),
        List.get?_map, List.get?_map, hs]
      rfl
    · have h1 : (writeAll f segs order (List.replicate segs.length none)).get? j =
          none := by
        apply List.get?_eq_none.mpr
        rw [writeAll_length]
        simp
        omega
      have h2 : (((segs.map f).map some).get? j) = none := by
        apply List.get?_eq_none.mpr
        simp
        omega
      rw [h1, h2]
  refine ⟨?_, by simp, ?_⟩
  · rw [dispatchAll, hwrite, collectSlots_map_some]
  · intro i h
    simp

/-- Witness for C8 on three segments whose workers complete out of
order. -/
theorem c8_witness :
    dispatchAll (fun n : Nat => n * 10) [1, 2, 3] [2, 0, 1] =
      some (([1, 2, 3] : List Nat).map (fun n => n * 10)) ∧
    (([1, 2, 3] : List Nat).map (fun n => n * 10)).length =
      ([1, 2, 3] : List Nat).length ∧
    (∀ i : Nat, ∀ h : i < ([1, 2, 3] : List Nat).length,
      (([1, 2, 3] : List Nat).map (fun n => n * 10)).get ⟨i, by simpa using h⟩ =
        (([1, 2, 3] : List Nat).get ⟨i, h⟩) * 10) :=
  c8_dispatch_order_independent (fun n : Nat => n * 10) [1, 2, 3] [2, 0, 1] (by decide)

end SCApp
